import Mathlib

/-!
# Verification of the polygonal NFC coil generator

A shallow embedding of `Scripts/generate_hex_coil_dxf.py`: the spiral point
generator `generate_hexagon_nfc_coil_dxf` and the resistance estimator
`calculate_coil_resistance`, with theorems settling the specification's claims
about them.  Floating-point arithmetic is modelled by real arithmetic; the
DXF/plot I/O side effects are out of scope and the functions below model the
numeric data flow only.
-/

noncomputable section

namespace HexCoil

/-- A 2-D point, as the `(x, y)` pairs the script appends to `points`. -/
abbrev Point : Type := ℝ × ℝ

/-- The parameters of `generate_hexagon_nfc_coil_dxf` (the coil specification).
`style` selects the shrink policy: `0` = per-side fractional shrink
(spec's Policy A), `1` = per-turn shrink (spec's Policy B). -/
structure CoilSpec where
  outer_diameter_mm : ℝ
  inner_diameter_mm : ℝ
  trace_width_mm : ℝ
  trace_thickness_mm : ℝ
  spacing_mm : ℝ
  num_turns : ℕ
  num_sides : ℕ
  style : ℕ

/-- Python's `math.radians`: degrees to radians. -/
def radians (deg : ℝ) : ℝ := deg * Real.pi / 180

/-- A point emitted by the script at running radius `r` and corner angle
`θdeg` (degrees): `(r * cos(radians θdeg), r * sin(radians θdeg))`. -/
def pt (r θdeg : ℝ) : Point := (r * Real.cos (radians θdeg), r * Real.sin (radians θdeg))

/-- `degree = 180 / num_sides` from the script. -/
def degree (spec : CoilSpec) : ℝ := 180 / (spec.num_sides : ℝ)

/-- `math.cos(math.radians(degree))`, the inscribed-to-circumscribed factor. -/
def cosHalf (spec : CoilSpec) : ℝ := Real.cos (radians (degree spec))

/-- The reassigned `outer_diameter_mm` after the inscribed-to-circumscribed
conversion: `outer_diameter_mm / cos(radians(degree))`. -/
def od_converted (spec : CoilSpec) : ℝ := spec.outer_diameter_mm / cosHalf spec

/-- The outer diameter after the style-0 first-turn compensation
(`outer_diameter_mm + trace_width_mm + spacing_mm`, applied only when
`style == 0`, after the conversion above). -/
def od_adjusted (spec : CoilSpec) : ℝ :=
  if spec.style = 0 then od_converted spec + spec.trace_width_mm + spec.spacing_mm
  else od_converted spec

/-- `delta_r = trace_width/cos(radians degree) + spacing/cos(radians degree)`. -/
def delta_r (spec : CoilSpec) : ℝ :=
  spec.trace_width_mm / cosHalf spec + spec.spacing_mm / cosHalf spec

/-- `r_outer = (outer_diameter_mm - trace_width_mm / cos(radians degree)) / 2`,
computed from the adjusted outer diameter. -/
def r_outer (spec : CoilSpec) : ℝ :=
  (od_adjusted spec - spec.trace_width_mm / cosHalf spec) / 2

/-- `angles_deg`: the corner angles `(360 / num_sides) * side` for
`side = 0, …, num_sides - 1`. -/
def anglesDeg (num_sides : ℕ) : List ℝ :=
  (List.range num_sides).map (fun (side : ℕ) => 360 / (num_sides : ℝ) * (side : ℝ))

/-- One iteration of the inner `for angle_deg in angles_deg` loop: under
`style == 0` first decrement the radius by `delta_r / 6`, then append the
point at the current radius. The state is `(r_current, points)`. -/
def emitSide (style : ℕ) (dr : ℝ) (st : ℝ × List Point) (θdeg : ℝ) : ℝ × List Point :=
  let r := if style = 0 then st.1 - dr / 6 else st.1
  (r, st.2 ++ [pt r θdeg])

/-- One iteration of the outer `for turn in range(num_turns)` loop: run the
inner loop over all corner angles, then under `style == 1` decrement the
radius by the full `delta_r`. -/
def emitTurn (style : ℕ) (dr : ℝ) (angles : List ℝ) (st : ℝ × List Point) : ℝ × List Point :=
  let st2 := angles.foldl (emitSide style dr) st
  if style = 1 then (st2.1 - dr, st2.2) else st2

/-- The `(r_current, points)` state after the whole turn loop, started from
`(r_outer, [])`. -/
def turnsState (spec : CoilSpec) : ℝ × List Point :=
  (List.range spec.num_turns).foldl
    (fun st _ => emitTurn spec.style (delta_r spec) (anglesDeg spec.num_sides) st)
    (r_outer spec, [])

/-- The `(r_current, points)` state after `k` iterations of the turn loop;
`r_start spec k` is the radius at the start of turn `k`. -/
def r_start (spec : CoilSpec) (k : ℕ) : ℝ :=
  ((List.range k).foldl
    (fun st _ => emitTurn spec.style (delta_r spec) (anglesDeg spec.num_sides) st)
    (r_outer spec, [])).1

/-- The radius used for the final point: under `style == 0` one more
`delta_r / 6` decrement is applied after the turn loop, otherwise the radius
is left as the turn loop ended it. -/
def r_final (spec : CoilSpec) : ℝ :=
  if spec.style = 0 then (turnsState spec).1 - delta_r spec / 6 else (turnsState spec).1

/-- The full `points` list built by the script: the turn-loop points followed
by the single extra point at angle `0`. -/
def points (spec : CoilSpec) : List Point :=
  (turnsState spec).2 ++ [pt (r_final spec) 0]

/-- `generate_hexagon_nfc_coil_dxf` (numeric part): builds `points`, wraps it
as the single element of `all_coordinates`, and returns `all_coordinates`. -/
def generate_hexagon_nfc_coil_dxf (spec : CoilSpec) : List (List Point) :=
  [points spec]

/-- The Euclidean length of the segment between two points, as computed by
`math.sqrt((x2-x1)**2 + (y2-y1)**2)`. -/
def segment_length (p q : Point) : ℝ :=
  Real.sqrt ((q.1 - p.1) ^ 2 + (q.2 - p.2) ^ 2)

/-- The `for i in range(len(turn_coordinates) - 1)` loop of
`calculate_coil_resistance`: the sum of the segment lengths between
consecutive points of one inner list. -/
def turnLength : List Point → ℝ
  | p :: q :: rest => segment_length p q + turnLength (q :: rest)
  | _ => 0

/-- `calculate_coil_resistance`: total length over all inner lists (mm),
converted to meters, then `resistivity * length / (width_m * thickness_m)`. -/
def calculate_coil_resistance (trace_width_mm trace_thickness_mm resistivity_copper : ℝ)
    (coordinates : List (List Point)) : ℝ :=
  let area := trace_width_mm / 1000 * (trace_thickness_mm / 1000)
  let total_length_mm := (coordinates.map turnLength).sum
  resistivity_copper * (total_length_mm / 1000) / area

/-- The total path length as the spec words it: the sum of Euclidean
distances over every consecutive pair of points, with no closing segment. -/
def specPathLength (path : List Point) : ℝ :=
  ((path.zip path.tail).map (fun pq => segment_length pq.1 pq.2)).sum

/-- Distance of a point from the origin. -/
def distO (p : Point) : ℝ := Real.sqrt (p.1 ^ 2 + p.2 ^ 2)

/-! ## Basic facts about emitted points and angles -/

theorem radians_zero : radians 0 = 0 := by simp [radians]

theorem pt_zero (r : ℝ) : pt r 0 = (r, 0) := by
  simp [pt, radians_zero]

theorem distO_pt (r θdeg : ℝ) : distO (pt r θdeg) = |r| := by
  have h : (r * Real.cos (radians θdeg)) ^ 2 + (r * Real.sin (radians θdeg)) ^ 2
      = r ^ 2 := by
    have := Real.sin_sq_add_cos_sq (radians θdeg)
    ring_nf
    nlinarith [this]
  rw [distO, pt]
  simp only [h]
  exact Real.sqrt_sq_eq_abs r

theorem anglesDeg_length (n : ℕ) : (anglesDeg n).length = n := by
  rw [anglesDeg, List.length_map, List.length_range]

theorem anglesDeg_cons (n : ℕ) (hn : 1 ≤ n) :
    ∃ rest, anglesDeg n = (0 : ℝ) :: rest := by
  obtain ⟨m, rfl⟩ := Nat.exists_eq_add_of_le hn
  refine ⟨((List.range m).map Nat.succ).map
    (fun (side : ℕ) => 360 / ((1 + m : ℕ) : ℝ) * (side : ℝ)), ?_⟩
  rw [anglesDeg, show 1 + m = m + 1 from Nat.add_comm 1 m, List.range_succ_eq_map]
  rw [List.map_cons, List.map_map]
  norm_num [Nat.add_comm m 1, Function.comp]

/-! ## Closed forms for the two loop styles -/

/-- The points of one style-0 turn started at radius `r`: each corner is
emitted after decrementing the radius by `dr / 6`. -/
def gen0 (dr : ℝ) : List ℝ → ℝ → List Point
  | [], _ => []
  | θ :: rest, r => pt (r - dr / 6) θ :: gen0 dr rest (r - dr / 6)

/-- The points of `T` style-0 turns started at radius `r`. -/
def genTurns0 (dr : ℝ) (angles : List ℝ) : ℕ → ℝ → List Point
  | 0, _ => []
  | T + 1, r => gen0 dr angles r ++ genTurns0 dr angles T (r - angles.length * (dr / 6))

/-- The points of `T` style-1 turns started at radius `r`: all corners of a
turn at the same radius, which then drops by the full `dr`. -/
def genTurns1 (dr : ℝ) (angles : List ℝ) : ℕ → ℝ → List Point
  | 0, _ => []
  | T + 1, r => angles.map (pt r) ++ genTurns1 dr angles T (r - dr)

theorem foldl_emitSide_zero (dr : ℝ) :
    ∀ (angles : List ℝ) (r : ℝ) (pts : List Point),
      angles.foldl (emitSide 0 dr) (r, pts)
        = (r - angles.length * (dr / 6), pts ++ gen0 dr angles r) := by
  intro angles
  induction angles with
  | nil => intro r pts; simp [gen0]
  | cons θ rest ih =>
    intro r pts
    rw [List.foldl_cons, show emitSide 0 dr (r, pts) θ
      = (r - dr / 6, pts ++ [pt (r - dr / 6) θ]) from rfl, ih]
    refine Prod.ext ?_ ?_
    · push_cast [List.length_cons]
      ring
    · simp [gen0]

theorem foldl_emitSide_one (dr : ℝ) :
    ∀ (angles : List ℝ) (r : ℝ) (pts : List Point),
      angles.foldl (emitSide 1 dr) (r, pts) = (r, pts ++ angles.map (pt r)) := by
  intro angles
  induction angles with
  | nil => intro r pts; simp
  | cons θ rest ih =>
    intro r pts
    rw [List.foldl_cons, show emitSide 1 dr (r, pts) θ = (r, pts ++ [pt r θ]) from rfl, ih]
    simp

theorem emitTurn_zero (dr : ℝ) (angles : List ℝ) (r : ℝ) (pts : List Point) :
    emitTurn 0 dr angles (r, pts)
      = (r - angles.length * (dr / 6), pts ++ gen0 dr angles r) := by
  rw [emitTurn, foldl_emitSide_zero]
  simp

theorem emitTurn_one (dr : ℝ) (angles : List ℝ) (r : ℝ) (pts : List Point) :
    emitTurn 1 dr angles (r, pts) = (r - dr, pts ++ angles.map (pt r)) := by
  rw [emitTurn, foldl_emitSide_one]
  simp

theorem genTurns0_snoc (dr : ℝ) (angles : List ℝ) :
    ∀ (T : ℕ) (r : ℝ), genTurns0 dr angles (T + 1) r
      = genTurns0 dr angles T r ++ gen0 dr angles (r - T * (angles.length * (dr / 6))) := by
  intro T
  induction T with
  | zero =>
    intro r
    rw [genTurns0, genTurns0, genTurns0]
    norm_num
  | succ T ih =>
    intro r
    rw [genTurns0, ih (r - angles.length * (dr / 6)), genTurns0,
      show r - angles.length * (dr / 6) - T * (angles.length * (dr / 6))
        = r - ((T + 1 : ℕ) : ℝ) * (angles.length * (dr / 6)) from by push_cast; ring,
      List.append_assoc]

theorem genTurns1_snoc (dr : ℝ) (angles : List ℝ) :
    ∀ (T : ℕ) (r : ℝ), genTurns1 dr angles (T + 1) r
      = genTurns1 dr angles T r ++ angles.map (pt (r - T * dr)) := by
  intro T
  induction T with
  | zero =>
    intro r
    rw [genTurns1, genTurns1, genTurns1]
    norm_num
  | succ T ih =>
    intro r
    rw [genTurns1, ih (r - dr), genTurns1,
      show r - dr - T * dr = r - ((T + 1 : ℕ) : ℝ) * dr from by push_cast; ring,
      List.append_assoc]

theorem foldl_turns_zero (dr : ℝ) (angles : List ℝ) :
    ∀ (T : ℕ) (r : ℝ) (pts : List Point),
      (List.range T).foldl (fun st _ => emitTurn 0 dr angles st) (r, pts)
        = (r - T * (angles.length * (dr / 6)), pts ++ genTurns0 dr angles T r) := by
  intro T
  induction T with
  | zero =>
    intro r pts
    rw [List.range_zero, List.foldl_nil, genTurns0]
    norm_num
  | succ T ih =>
    intro r pts
    rw [List.range_succ, List.foldl_append, ih r pts, List.foldl_cons, List.foldl_nil,
      emitTurn_zero, genTurns0_snoc]
    refine Prod.ext ?_ ?_
    · push_cast
      ring
    · simp

theorem foldl_turns_one (dr : ℝ) (angles : List ℝ) :
    ∀ (T : ℕ) (r : ℝ) (pts : List Point),
      (List.range T).foldl (fun st _ => emitTurn 1 dr angles st) (r, pts)
        = (r - T * dr, pts ++ genTurns1 dr angles T r) := by
  intro T
  induction T with
  | zero =>
    intro r pts
    rw [List.range_zero, List.foldl_nil, genTurns1]
    norm_num
  | succ T ih =>
    intro r pts
    rw [List.range_succ, List.foldl_append, ih r pts, List.foldl_cons, List.foldl_nil,
      emitTurn_one, genTurns1_snoc]
    refine Prod.ext ?_ ?_
    · push_cast
      ring
    · simp

theorem turnsState_zero (spec : CoilSpec) (h : spec.style = 0) :
    turnsState spec
      = (r_outer spec - spec.num_turns * (spec.num_sides * (delta_r spec / 6)),
         genTurns0 (delta_r spec) (anglesDeg spec.num_sides) spec.num_turns (r_outer spec)) := by
  rw [turnsState, h, foldl_turns_zero, anglesDeg_length]
  simp

theorem turnsState_one (spec : CoilSpec) (h : spec.style = 1) :
    turnsState spec
      = (r_outer spec - spec.num_turns * delta_r spec,
         genTurns1 (delta_r spec) (anglesDeg spec.num_sides) spec.num_turns (r_outer spec)) := by
  rw [turnsState, h, foldl_turns_one]
  simp

theorem r_start_one (spec : CoilSpec) (h : spec.style = 1) (k : ℕ) :
    r_start spec k = r_outer spec - k * delta_r spec := by
  rw [r_start, h, foldl_turns_one]

/-! ## Point counts -/

theorem length_foldl_emitSide (s : ℕ) (dr : ℝ) :
    ∀ (angles : List ℝ) (st : ℝ × List Point),
      ((angles.foldl (emitSide s dr) st).2).length = st.2.length + angles.length := by
  intro angles
  induction angles with
  | nil => intro st; simp
  | cons θ rest ih =>
    intro st
    rw [List.foldl_cons, ih]
    simp [emitSide]
    ring

theorem length_emitTurn (s : ℕ) (dr : ℝ) (angles : List ℝ) (st : ℝ × List Point) :
    ((emitTurn s dr angles st).2).length = st.2.length + angles.length := by
  rw [emitTurn]
  by_cases h : s = 1 <;> simp [h, length_foldl_emitSide]

theorem length_foldl_turns (s : ℕ) (dr : ℝ) (angles : List ℝ) :
    ∀ (T : ℕ) (st : ℝ × List Point),
      (((List.range T).foldl (fun st _ => emitTurn s dr angles st) st).2).length
        = st.2.length + T * angles.length := by
  intro T
  induction T with
  | zero => intro st; simp
  | succ T ih =>
    intro st
    rw [List.range_succ, List.foldl_append, List.foldl_cons, List.foldl_nil,
      length_emitTurn, ih]
    ring

theorem points_length (spec : CoilSpec) :
    (points spec).length = spec.num_sides * spec.num_turns + 1 := by
  rw [points, List.length_append, turnsState, length_foldl_turns, anglesDeg_length]
  simp [Nat.mul_comm]

/-! ## First and last emitted points -/

theorem points_getLast (spec : CoilSpec) :
    (points spec).getLast? = some (r_final spec, 0) := by
  rw [points, pt_zero, List.getLast?_concat]

theorem points_head_zero (spec : CoilSpec) (h : spec.style = 0)
    (hT : 1 ≤ spec.num_turns) (hn : 1 ≤ spec.num_sides) :
    (points spec).head? = some (r_outer spec - delta_r spec / 6, 0) := by
  obtain ⟨T, hT'⟩ := Nat.exists_eq_add_of_le hT
  obtain ⟨rest, hrest⟩ := anglesDeg_cons spec.num_sides hn
  rw [points, turnsState_zero spec h]
  rw [show spec.num_turns = T + 1 from by omega, genTurns0, hrest, gen0, pt_zero]
  simp

theorem points_head_one (spec : CoilSpec) (h : spec.style = 1)
    (hT : 1 ≤ spec.num_turns) (hn : 1 ≤ spec.num_sides) :
    (points spec).head? = some (r_outer spec, 0) := by
  obtain ⟨T, hT'⟩ := Nat.exists_eq_add_of_le hT
  obtain ⟨rest, hrest⟩ := anglesDeg_cons spec.num_sides hn
  rw [points, turnsState_one spec h]
  rw [show spec.num_turns = T + 1 from by omega, genTurns1, hrest, List.map_cons, pt_zero]
  simp

/-! ## Geometry of the half angle -/

theorem radians_degree (spec : CoilSpec) (hn : spec.num_sides ≠ 0) :
    radians (degree spec) = Real.pi / spec.num_sides := by
  rw [radians, degree]
  have : (spec.num_sides : ℝ) ≠ 0 := Nat.cast_ne_zero.mpr hn
  field_simp
  ring

theorem cosHalf_pos (spec : CoilSpec) (hn : 3 ≤ spec.num_sides) : 0 < cosHalf spec := by
  rw [cosHalf, radians_degree spec (by omega)]
  apply Real.cos_pos_of_mem_Ioo
  constructor
  · have h1 : 0 < Real.pi / spec.num_sides := by
      apply div_pos Real.pi_pos
      exact_mod_cast Nat.pos_of_ne_zero (by omega)
    linarith [Real.pi_pos]
  · have h3 : (3 : ℝ) ≤ spec.num_sides := by exact_mod_cast hn
    calc Real.pi / spec.num_sides ≤ Real.pi / 3 := by
          apply div_le_div_of_nonneg_left Real.pi_pos.le (by norm_num) h3
      _ < Real.pi / 2 := by
          apply div_lt_div_of_pos_left Real.pi_pos (by norm_num) (by norm_num)

theorem delta_r_pos (spec : CoilSpec) (hn : 3 ≤ spec.num_sides)
    (htw : 0 < spec.trace_width_mm) (hsp : 0 < spec.spacing_mm) : 0 < delta_r spec := by
  have hc := cosHalf_pos spec hn
  rw [delta_r]
  positivity

theorem cosHalf_of_three (spec : CoilSpec) (h : spec.num_sides = 3) :
    cosHalf spec = 1 / 2 := by
  rw [cosHalf, radians_degree spec (by omega), h]
  rw [show Real.pi / ((3 : ℕ) : ℝ) = Real.pi / 3 from by norm_num]
  exact Real.cos_pi_div_three

/-! ## Monotonicity of the distance from the origin -/

/-- The path visits points at non-increasing distance from the origin. -/
def distNonInc (l : List Point) : Prop :=
  l.Chain' (fun p q => distO q ≤ distO p)

theorem distO_mem_map_pt {p : Point} {r : ℝ} {angles : List ℝ}
    (hp : p ∈ angles.map (pt r)) : distO p = |r| := by
  obtain ⟨θ, _, rfl⟩ := List.mem_map.mp hp
  exact distO_pt r θ

theorem chain'_map_pt (r : ℝ) (angles : List ℝ) : distNonInc (angles.map (pt r)) := by
  induction angles with
  | nil => exact List.chain'_nil
  | cons θ rest ih =>
    rw [List.map_cons, distNonInc, List.chain'_cons']
    refine ⟨fun y hy => ?_, ih⟩
    have hy' : y ∈ rest.map (pt r) := List.mem_of_mem_head? hy
    rw [distO_mem_map_pt hy', distO_pt]

theorem gen0_chain (dr : ℝ) (hdr : 0 ≤ dr) :
    ∀ (angles : List ℝ) (r : ℝ), 0 ≤ r - angles.length * (dr / 6) →
      distNonInc (gen0 dr angles r) ∧
      ∀ p ∈ gen0 dr angles r,
        r - angles.length * (dr / 6) ≤ distO p ∧ distO p ≤ r - dr / 6 := by
  intro angles
  induction angles with
  | nil =>
    intro r _
    exact ⟨List.chain'_nil, by intro p hp; cases hp⟩
  | cons θ rest ih =>
    intro r hr
    have hdr6 : 0 ≤ dr / 6 := by linarith
    have hlen : (0 : ℝ) ≤ rest.length * (dr / 6) := by positivity
    have hcast : ((θ :: rest).length : ℝ) = rest.length + 1 := by
      push_cast [List.length_cons]; ring
    have hr' : 0 ≤ r - dr / 6 - rest.length * (dr / 6) := by
      rw [hcast] at hr; linarith
    have hfirst : distO (pt (r - dr / 6) θ) = r - dr / 6 := by
      rw [distO_pt, abs_of_nonneg (by linarith)]
    obtain ⟨ihchain, ihbound⟩ := ih (r - dr / 6) hr'
    constructor
    · rw [gen0, distNonInc, List.chain'_cons']
      refine ⟨fun y hy => ?_, ihchain⟩
      have hy' := List.mem_of_mem_head? hy
      have := (ihbound y hy').2
      rw [hfirst]
      linarith
    · intro p hp
      rw [gen0, List.mem_cons] at hp
      rcases hp with rfl | hp
      · rw [hfirst, hcast]
        constructor <;> linarith
      · obtain ⟨h1, h2⟩ := ihbound p hp
        rw [hcast]
        constructor <;> linarith

theorem genTurns0_chain (dr : ℝ) (hdr : 0 ≤ dr) (angles : List ℝ) :
    ∀ (T : ℕ) (r : ℝ), 0 ≤ r - T * (angles.length * (dr / 6)) →
      distNonInc (genTurns0 dr angles T r) ∧
      ∀ p ∈ genTurns0 dr angles T r,
        r - T * (angles.length * (dr / 6)) ≤ distO p ∧ distO p ≤ r := by
  intro T
  induction T with
  | zero =>
    intro r _
    exact ⟨List.chain'_nil, by intro p hp; cases hp⟩
  | succ T ih =>
    intro r hr
    have hdr6 : 0 ≤ dr / 6 := by linarith
    have hlen : (0 : ℝ) ≤ angles.length * (dr / 6) := by positivity
    have hTlen : (0 : ℝ) ≤ T * (angles.length * (dr / 6)) := by positivity
    have hcast : ((T + 1 : ℕ) : ℝ) = (T : ℝ) + 1 := by push_cast; ring
    rw [hcast] at hr
    have hg : 0 ≤ r - angles.length * (dr / 6) := by nlinarith
    obtain ⟨gchain, gbound⟩ := gen0_chain dr hdr angles r hg
    have hr' : 0 ≤ r - angles.length * (dr / 6) - T * (angles.length * (dr / 6)) := by
      nlinarith
    obtain ⟨ichain, ibound⟩ := ih (r - angles.length * (dr / 6)) hr'
    constructor
    · rw [genTurns0, distNonInc, List.chain'_append]
      refine ⟨gchain, ichain, fun x hx y hy => ?_⟩
      have hx' := List.mem_of_mem_getLast? hx
      have hy' := List.mem_of_mem_head? hy
      have h1 := (gbound x hx').1
      have h2 := (ibound y hy').2
      linarith
    · intro p hp
      rw [genTurns0, List.mem_append] at hp
      rw [hcast]
      rcases hp with hp | hp
      · obtain ⟨h1, h2⟩ := gbound p hp
        constructor <;> linarith
      · obtain ⟨h1, h2⟩ := ibound p hp
        constructor <;> linarith

theorem genTurns1_chain (dr : ℝ) (hdr : 0 ≤ dr) (angles : List ℝ) :
    ∀ (T : ℕ) (r : ℝ), 0 ≤ r - T * dr →
      distNonInc (genTurns1 dr angles T r) ∧
      ∀ p ∈ genTurns1 dr angles T r, r - T * dr ≤ distO p ∧ distO p ≤ r := by
  intro T
  induction T with
  | zero =>
    intro r _
    exact ⟨List.chain'_nil, by intro p hp; cases hp⟩
  | succ T ih =>
    intro r hr
    have hTdr : (0 : ℝ) ≤ T * dr := by positivity
    have hcast : ((T + 1 : ℕ) : ℝ) = (T : ℝ) + 1 := by push_cast; ring
    rw [hcast] at hr
    have hrpos : 0 ≤ r := by nlinarith
    have hr' : 0 ≤ r - dr - T * dr := by nlinarith
    obtain ⟨ichain, ibound⟩ := ih (r - dr) hr'
    have hmap : ∀ p ∈ angles.map (pt r), distO p = r := by
      intro p hp
      rw [distO_mem_map_pt hp, abs_of_nonneg hrpos]
    constructor
    · rw [genTurns1, distNonInc, List.chain'_append]
      refine ⟨chain'_map_pt r angles, ichain, fun x hx y hy => ?_⟩
      have hx' := List.mem_of_mem_getLast? hx
      have hy' := List.mem_of_mem_head? hy
      have h1 := hmap x hx'
      have h2 := (ibound y hy').2
      linarith
    · intro p hp
      rw [genTurns1, List.mem_append] at hp
      rw [hcast]
      rcases hp with hp | hp
      · rw [hmap p hp]
        constructor <;> linarith
      · obtain ⟨h1, h2⟩ := ibound p hp
        constructor <;> linarith

theorem r_final_zero (spec : CoilSpec) (h : spec.style = 0) :
    r_final spec
      = r_outer spec - spec.num_turns * (spec.num_sides * (delta_r spec / 6))
        - delta_r spec / 6 := by
  rw [r_final, if_pos h, turnsState_zero spec h]

theorem r_final_one (spec : CoilSpec) (h : spec.style = 1) :
    r_final spec = r_outer spec - spec.num_turns * delta_r spec := by
  rw [r_final, if_neg (by omega), turnsState_one spec h]

theorem points_char_zero (spec : CoilSpec) (h : spec.style = 0) :
    points spec
      = genTurns0 (delta_r spec) (anglesDeg spec.num_sides) spec.num_turns (r_outer spec)
        ++ [pt (r_outer spec - spec.num_turns * (spec.num_sides * (delta_r spec / 6))
          - delta_r spec / 6) 0] := by
  rw [points, r_final_zero spec h,
    show (turnsState spec).2
      = genTurns0 (delta_r spec) (anglesDeg spec.num_sides) spec.num_turns (r_outer spec)
      from by rw [turnsState_zero spec h]]

theorem points_char_one (spec : CoilSpec) (h : spec.style = 1) :
    points spec
      = genTurns1 (delta_r spec) (anglesDeg spec.num_sides) spec.num_turns (r_outer spec)
        ++ [pt (r_outer spec - spec.num_turns * delta_r spec) 0] := by
  rw [points, r_final_one spec h,
    show (turnsState spec).2
      = genTurns1 (delta_r spec) (anglesDeg spec.num_sides) spec.num_turns (r_outer spec)
      from by rw [turnsState_one spec h]]

/-- Whenever the terminal radius is still nonnegative, the whole emitted path
is non-increasing in distance from the origin (both shrink styles). -/
theorem points_distNonInc (spec : CoilSpec) (hn : 3 ≤ spec.num_sides)
    (htw : 0 < spec.trace_width_mm) (hsp : 0 < spec.spacing_mm)
    (hst : spec.style = 0 ∨ spec.style = 1) (hrf : 0 ≤ r_final spec) :
    distNonInc (points spec) := by
  have hdr : 0 ≤ delta_r spec := (delta_r_pos spec hn htw hsp).le
  have hlen : (((anglesDeg spec.num_sides).length : ℕ) : ℝ) = (spec.num_sides : ℝ) := by
    rw [anglesDeg_length]
  have hterm : distO (pt (r_final spec) 0) = r_final spec := by
    rw [distO_pt, abs_of_nonneg hrf]
  rcases hst with h | h
  · have hts := turnsState_zero spec h
    have hrf' := r_final_zero spec h
    have hcond : 0 ≤ r_outer spec
        - spec.num_turns * (((anglesDeg spec.num_sides).length : ℝ) * (delta_r spec / 6)) := by
      rw [hlen]
      have : 0 ≤ delta_r spec / 6 := by linarith
      nlinarith [hrf, hrf']
    obtain ⟨gchain, gbound⟩ := genTurns0_chain (delta_r spec) hdr (anglesDeg spec.num_sides)
      spec.num_turns (r_outer spec) hcond
    rw [points, show (turnsState spec).2
      = genTurns0 (delta_r spec) (anglesDeg spec.num_sides) spec.num_turns (r_outer spec)
      from by rw [hts], distNonInc, List.chain'_append]
    refine ⟨gchain, List.chain'_singleton _, fun x hx y hy => ?_⟩
    have hx' := List.mem_of_mem_getLast? hx
    have hy' : y = pt (r_final spec) 0 := by
      simp only [List.head?_cons, Option.mem_def, Option.some.injEq] at hy
      exact hy.symm
    have h1 := (gbound x hx').1
    rw [hlen] at h1
    rw [hy', hterm]
    have : 0 ≤ delta_r spec / 6 := by linarith
    nlinarith [hrf']
  · have hts := turnsState_one spec h
    have hrf' := r_final_one spec h
    have hcond : 0 ≤ r_outer spec - spec.num_turns * delta_r spec := by
      rw [← hrf']; exact hrf
    obtain ⟨gchain, gbound⟩ := genTurns1_chain (delta_r spec) hdr (anglesDeg spec.num_sides)
      spec.num_turns (r_outer spec) hcond
    rw [points, show (turnsState spec).2
      = genTurns1 (delta_r spec) (anglesDeg spec.num_sides) spec.num_turns (r_outer spec)
      from by rw [hts], distNonInc, List.chain'_append]
    refine ⟨gchain, List.chain'_singleton _, fun x hx y hy => ?_⟩
    have hx' := List.mem_of_mem_getLast? hx
    have hy' : y = pt (r_final spec) 0 := by
      simp only [List.head?_cons, Option.mem_def, Option.some.injEq] at hy
      exact hy.symm
    have h1 := (gbound x hx').1
    rw [hy', hterm, hrf']
    linarith

/-! ## Length and resistance facts -/

theorem segment_length_nonneg (p q : Point) : 0 ≤ segment_length p q :=
  Real.sqrt_nonneg _

theorem turnLength_eq_specPathLength (l : List Point) :
    turnLength l = specPathLength l := by
  induction l with
  | nil => rfl
  | cons p rest ih =>
    cases rest with
    | nil => rfl
    | cons q rest' =>
      rw [turnLength, ih]
      simp [specPathLength]

theorem turnLength_nonneg (l : List Point) : 0 ≤ turnLength l := by
  induction l with
  | nil => exact le_refl 0
  | cons p rest ih =>
    cases rest with
    | nil => exact le_refl 0
    | cons q rest' =>
      rw [turnLength]
      have := segment_length_nonneg p q
      linarith

theorem turnLength_single (p : Point) : turnLength [p] = 0 := rfl

theorem turnLength_two (p q : Point) : turnLength [p, q] = segment_length p q := by
  rw [turnLength, turnLength_single]
  ring

theorem segment_length_three_four :
    segment_length ((0 : ℝ), (0 : ℝ)) ((3 : ℝ), (4 : ℝ)) = 5 := by
  rw [segment_length]
  norm_num
  rw [show (25 : ℝ) = 5 ^ 2 by norm_num, Real.sqrt_sq (by norm_num)]

theorem calculate_single (w t ρ : ℝ) (l : List Point) :
    calculate_coil_resistance w t ρ [l]
      = ρ * (turnLength l / 1000) / (w / 1000 * (t / 1000)) := by
  rw [calculate_coil_resistance]
  simp

theorem calculate_nonneg (w t ρ : ℝ) (cs : List (List Point))
    (hw : 0 < w) (ht : 0 < t) (hρ : 0 ≤ ρ) :
    0 ≤ calculate_coil_resistance w t ρ cs := by
  rw [calculate_coil_resistance]
  have hsum : 0 ≤ (cs.map turnLength).sum := by
    apply List.sum_nonneg
    intro x hx
    obtain ⟨l, _, rfl⟩ := List.mem_map.mp hx
    exact turnLength_nonneg l
  positivity

theorem calculate_short_lists (w t ρ : ℝ) (cs : List (List Point))
    (hcs : ∀ l ∈ cs, l.length < 2) : calculate_coil_resistance w t ρ cs = 0 := by
  have hsum : (cs.map turnLength).sum = 0 := by
    apply List.sum_eq_zero
    intro x hx
    obtain ⟨l, hl, rfl⟩ := List.mem_map.mp hx
    have := hcs l hl
    match l, this with
    | [], _ => rfl
    | [p], _ => rfl
  rw [calculate_coil_resistance, hsum]
  simp

theorem calculate_append (w t ρ : ℝ) (cs₁ cs₂ : List (List Point)) :
    calculate_coil_resistance w t ρ (cs₁ ++ cs₂)
      = calculate_coil_resistance w t ρ cs₁ + calculate_coil_resistance w t ρ cs₂ := by
  rw [calculate_coil_resistance, calculate_coil_resistance, calculate_coil_resistance,
    List.map_append, List.sum_append]
  ring

/-! ## Scaling the in-plane lengths -/

/-- Scale both coordinates of a point by `k`. -/
def scalePoint (k : ℝ) (p : Point) : Point := (k * p.1, k * p.2)

/-- Scale the in-plane length parameters (outer diameter, trace width,
spacing) of a specification by `k`, holding everything else fixed. -/
def scaleSpec (k : ℝ) (spec : CoilSpec) : CoilSpec :=
  ⟨k * spec.outer_diameter_mm, spec.inner_diameter_mm, k * spec.trace_width_mm,
    spec.trace_thickness_mm, k * spec.spacing_mm, spec.num_turns, spec.num_sides, spec.style⟩

theorem cosHalf_scale (k : ℝ) (spec : CoilSpec) : cosHalf (scaleSpec k spec) = cosHalf spec := rfl

theorem od_adjusted_scale (k : ℝ) (spec : CoilSpec) :
    od_adjusted (scaleSpec k spec) = k * od_adjusted spec := by
  rw [od_adjusted, od_adjusted, od_converted, od_converted, cosHalf_scale]
  by_cases h : spec.style = 0 <;> simp [scaleSpec, h] <;> ring

theorem delta_r_scale (k : ℝ) (spec : CoilSpec) :
    delta_r (scaleSpec k spec) = k * delta_r spec := by
  rw [delta_r, delta_r, cosHalf_scale]
  show k * spec.trace_width_mm / cosHalf spec + k * spec.spacing_mm / cosHalf spec = _
  ring

theorem r_outer_scale (k : ℝ) (spec : CoilSpec) :
    r_outer (scaleSpec k spec) = k * r_outer spec := by
  rw [r_outer, r_outer, od_adjusted_scale, cosHalf_scale]
  show (k * od_adjusted spec - k * spec.trace_width_mm / cosHalf spec) / 2 = _
  ring

theorem pt_scale (k r θdeg : ℝ) : pt (k * r) θdeg = scalePoint k (pt r θdeg) := by
  rw [pt, pt, scalePoint]
  show (k * r * _, k * r * _) = (k * (r * _), k * (r * _))
  rw [mul_assoc, mul_assoc]

theorem gen0_scale (k dr : ℝ) :
    ∀ (angles : List ℝ) (r : ℝ),
      gen0 (k * dr) angles (k * r) = (gen0 dr angles r).map (scalePoint k) := by
  intro angles
  induction angles with
  | nil => intro r; rfl
  | cons θ rest ih =>
    intro r
    rw [gen0, gen0, List.map_cons,
      show k * r - k * dr / 6 = k * (r - dr / 6) from by ring, pt_scale, ih]

theorem map_pt_scale (k r : ℝ) (angles : List ℝ) :
    angles.map (pt (k * r)) = (angles.map (pt r)).map (scalePoint k) := by
  rw [List.map_map]
  apply List.map_congr_left
  intro θ _
  exact pt_scale k r θ

theorem genTurns0_scale (k dr : ℝ) (angles : List ℝ) :
    ∀ (T : ℕ) (r : ℝ),
      genTurns0 (k * dr) angles T (k * r) = (genTurns0 dr angles T r).map (scalePoint k) := by
  intro T
  induction T with
  | zero => intro r; rfl
  | succ T ih =>
    intro r
    rw [genTurns0, genTurns0, List.map_append, gen0_scale,
      show k * r - angles.length * (k * dr / 6)
        = k * (r - angles.length * (dr / 6)) from by ring, ih]

theorem genTurns1_scale (k dr : ℝ) (angles : List ℝ) :
    ∀ (T : ℕ) (r : ℝ),
      genTurns1 (k * dr) angles T (k * r) = (genTurns1 dr angles T r).map (scalePoint k) := by
  intro T
  induction T with
  | zero => intro r; rfl
  | succ T ih =>
    intro r
    rw [genTurns1, genTurns1, List.map_append, map_pt_scale,
      show k * r - k * dr = k * (r - dr) from by ring, ih]

theorem points_scale (k : ℝ) (spec : CoilSpec) (hst : spec.style = 0 ∨ spec.style = 1) :
    points (scaleSpec k spec) = (points spec).map (scalePoint k) := by
  rcases hst with h | h
  · have h' : (scaleSpec k spec).style = 0 := h
    rw [points_char_zero spec h, points_char_zero _ h', List.map_append, List.map_singleton,
      delta_r_scale, r_outer_scale,
      show anglesDeg (scaleSpec k spec).num_sides = anglesDeg spec.num_sides from rfl,
      show (scaleSpec k spec).num_turns = spec.num_turns from rfl,
      show (scaleSpec k spec).num_sides = spec.num_sides from rfl,
      genTurns0_scale, ← pt_scale]
    congr 3
    ring
  · have h' : (scaleSpec k spec).style = 1 := h
    rw [points_char_one spec h, points_char_one _ h', List.map_append, List.map_singleton,
      delta_r_scale, r_outer_scale,
      show anglesDeg (scaleSpec k spec).num_sides = anglesDeg spec.num_sides from rfl,
      show (scaleSpec k spec).num_turns = spec.num_turns from rfl,
      genTurns1_scale, ← pt_scale]
    congr 3
    ring

theorem segment_length_scale (k : ℝ) (hk : 0 ≤ k) (p q : Point) :
    segment_length (scalePoint k p) (scalePoint k q) = k * segment_length p q := by
  rw [segment_length, segment_length, scalePoint, scalePoint]
  show Real.sqrt ((k * q.1 - k * p.1) ^ 2 + (k * q.2 - k * p.2) ^ 2) = _
  rw [show (k * q.1 - k * p.1) ^ 2 + (k * q.2 - k * p.2) ^ 2
    = k ^ 2 * ((q.1 - p.1) ^ 2 + (q.2 - p.2) ^ 2) from by ring,
    Real.sqrt_mul (by positivity), Real.sqrt_sq hk]

theorem turnLength_scale (k : ℝ) (hk : 0 ≤ k) :
    ∀ l : List Point, turnLength (l.map (scalePoint k)) = k * turnLength l := by
  intro l
  induction l with
  | nil => simp [turnLength]
  | cons p rest ih =>
    cases rest with
    | nil => simp [turnLength]
    | cons q rest' =>
      rw [List.map_cons, List.map_cons, turnLength, turnLength,
        segment_length_scale k hk, show (scalePoint k q :: rest'.map (scalePoint k))
          = (q :: rest').map (scalePoint k) from rfl, ih]
      ring

/-! ## Concrete example specifications

All use `num_sides = 3` so that the half-angle cosine is exactly `1/2` and
every derived quantity is rational. -/

/-- A style-0 (per-side shrink) spec: triangle, one turn, default lengths. -/
def specStyle0 : CoilSpec := ⟨31.5, 25.2, 0.3, 0.035, 0.3, 1, 3, 0⟩

/-- A style-1 (per-turn shrink) spec: triangle, seven turns, default lengths. -/
def specStyle1 : CoilSpec := ⟨31.5, 25.2, 0.3, 0.035, 0.3, 7, 3, 1⟩

/-- `specStyle1` with `num_turns = 0`. -/
def specNoTurns : CoilSpec := ⟨31.5, 25.2, 0.3, 0.035, 0.3, 0, 3, 1⟩

/-- A style-1 spec whose spacing is so large that one turn drives the
radius negative. -/
def specWideSpacing : CoilSpec := ⟨31.5, 25.2, 0.3, 0.035, 31, 1, 3, 1⟩

/-- `specStyle1` with the outer diameter doubled and all else fixed. -/
def specDoubledOD : CoilSpec := ⟨63, 25.2, 0.3, 0.035, 0.3, 7, 3, 1⟩

theorem specStyle0_delta : delta_r specStyle0 = 1.2 := by
  rw [delta_r, cosHalf_of_three specStyle0 rfl]
  norm_num [specStyle0]

theorem specStyle0_router : r_outer specStyle0 = 31.5 := by
  rw [r_outer, od_adjusted, od_converted, cosHalf_of_three specStyle0 rfl]
  norm_num [specStyle0]

theorem specStyle1_delta : delta_r specStyle1 = 1.2 := by
  rw [delta_r, cosHalf_of_three specStyle1 rfl]
  norm_num [specStyle1]

theorem specStyle1_router : r_outer specStyle1 = 31.2 := by
  rw [r_outer, od_adjusted, od_converted, cosHalf_of_three specStyle1 rfl]
  norm_num [specStyle1]

theorem specStyle1_rfinal : r_final specStyle1 = 22.8 := by
  rw [r_final_one specStyle1 rfl, specStyle1_router, specStyle1_delta]
  norm_num [specStyle1]

theorem specNoTurns_router : r_outer specNoTurns = 31.2 := by
  rw [r_outer, od_adjusted, od_converted, cosHalf_of_three specNoTurns rfl]
  norm_num [specNoTurns]

theorem specWideSpacing_delta : delta_r specWideSpacing = 62.6 := by
  rw [delta_r, cosHalf_of_three specWideSpacing rfl]
  norm_num [specWideSpacing]

theorem specWideSpacing_router : r_outer specWideSpacing = 31.2 := by
  rw [r_outer, od_adjusted, od_converted, cosHalf_of_three specWideSpacing rfl]
  norm_num [specWideSpacing]

theorem specDoubledOD_router : r_outer specDoubledOD = 62.7 := by
  rw [r_outer, od_adjusted, od_converted, cosHalf_of_three specDoubledOD rfl]
  norm_num [specDoubledOD]

theorem anglesDeg_three : anglesDeg 3 = [0, 120, 240] := by
  rw [anglesDeg]
  norm_num [List.range_succ]

/-! ## The claims -/

/-- C1: for every valid coil specification (`num_sides ≥ 3`, `num_turns ≥ 1`,
all length parameters positive) and either shrink policy, the generator's
point sequence has exactly `num_sides * num_turns + 1` points — `num_sides`
corners per turn plus one extra terminal point at angle 0 (so with `y = 0`
and `x` the terminal radius). -/
theorem C1_point_count (spec : CoilSpec) (hn : 3 ≤ spec.num_sides)
    (hT : 1 ≤ spec.num_turns) (hod : 0 < spec.outer_diameter_mm)
    (htw : 0 < spec.trace_width_mm) (htt : 0 < spec.trace_thickness_mm)
    (hsp : 0 < spec.spacing_mm) (hst : spec.style = 0 ∨ spec.style = 1) :
    ((generate_hexagon_nfc_coil_dxf spec).headI).length
        = spec.num_sides * spec.num_turns + 1
      ∧ ((generate_hexagon_nfc_coil_dxf spec).headI).getLast?
        = some (r_final spec, 0) := by
  constructor
  · show (points spec).length = _
    exact points_length spec
  · show (points spec).getLast? = _
    exact points_getLast spec

/-- Witness for C1 at the concrete `specStyle1` (3 sides, 7 turns):
22 points, terminal point at angle 0 with radius `r_final`. -/
theorem C1_point_count_witness :
    ((generate_hexagon_nfc_coil_dxf specStyle1).headI).length = 22 := by
  have h := C1_point_count specStyle1 (by norm_num [specStyle1]) (by norm_num [specStyle1])
    (by norm_num [specStyle1]) (by norm_num [specStyle1]) (by norm_num [specStyle1])
    (by norm_num [specStyle1]) (Or.inr rfl)
  rw [h.1]
  norm_num [specStyle1]

/-- C2 (code bug): the claim says the per-side decrement is
`delta_r / num_sides` for every `num_sides ≥ 3`, but the code hardcodes
`delta_r / 6`.  At the failing input `specStyle0` (`num_sides = 3`,
`style = 0`, `delta_r = 1.2`, `r_outer = 31.5`) the first emitted corner is
at radius `31.5 - 1.2/6 = 31.3`, whereas the claimed `delta_r / num_sides`
decrement would give `31.5 - 1.2/3 = 31.1`. -/
theorem C2_hardcoded_six :
    ((generate_hexagon_nfc_coil_dxf specStyle0).headI).head? = some ((31.3 : ℝ), 0)
      ∧ ((31.3 : ℝ)) ≠ 31.5 - 1.2 / 3 := by
  constructor
  · show (points specStyle0).head? = _
    rw [points_head_zero specStyle0 rfl (by norm_num [specStyle0]) (by norm_num [specStyle0]),
      specStyle0_router, specStyle0_delta]
    norm_num
  · norm_num

/-- C3 counterexample: `generate` with `num_turns = 0` (all other parameters
valid) does not fail — it returns a coil path holding the single terminal
point `(31.2, 0)`. -/
theorem C3_zero_turns_returns_path :
    generate_hexagon_nfc_coil_dxf specNoTurns = [[((31.2 : ℝ), 0)]] := by
  rw [generate_hexagon_nfc_coil_dxf, points_char_one specNoTurns rfl,
    show specNoTurns.num_turns = 0 from rfl, genTurns1, pt_zero, specNoTurns_router]
  norm_num

/-- C3 amended: `generate` raises no `InvalidSpecification` error — the
source contains no validation at all.  On every input where its divisions
are defined — `num_sides ≥ 1` (so `degree = 180/num_sides` exists) and
nonzero trace width and thickness (so the area in the embedded resistance
call is nonzero) — it returns a point sequence of
`num_sides * num_turns + 1` points instead of failing; in particular
`num_turns = 0`, `num_sides ∈ {1, 2}` and negative lengths are passed
through silently.  (At `num_sides = 0` or zero trace width/thickness the
source fails, but with a `ZeroDivisionError`, not `InvalidSpecification`.) -/
theorem C3_amended_no_validation (spec : CoilSpec) (hn : 1 ≤ spec.num_sides)
    (htw : spec.trace_width_mm ≠ 0) (htt : spec.trace_thickness_mm ≠ 0) :
    ((generate_hexagon_nfc_coil_dxf spec).headI).length
      = spec.num_sides * spec.num_turns + 1 :=
  points_length spec

/-- Witness for C3's amended claim at `specNoTurns` (zero turns: a
single-point path is returned, no failure). -/
theorem C3_amended_no_validation_witness :
    ((generate_hexagon_nfc_coil_dxf specNoTurns).headI).length = 1 := by
  have h := C3_amended_no_validation specNoTurns (by norm_num [specNoTurns])
    (by norm_num [specNoTurns]) (by norm_num [specNoTurns])
  rw [h]
  norm_num [specNoTurns]

/-- C4: `calculate_coil_resistance` on a single-path input equals
`resistivity * (L/1000) / ((w/1000) * (t/1000))` where `L` sums the Euclidean
distances of consecutive pairs only (no closing segment); on the 2-point path
`(0,0),(3,4)` with `w = 1`, `t = 0.035`, `ρ = 1.70e-8` it returns exactly
`17/7000 ≈ 0.0024286` Ω (the spec's rounded `0.002429`), which is within
`1e-6` relative tolerance of the formula value `1.70e-8 * 0.005 / 3.5e-8`;
and the result is never negative for valid inputs. -/
theorem C4_resistance_formula :
    (∀ (w t ρ : ℝ) (path : List Point), 2 ≤ path.length →
      calculate_coil_resistance w t ρ [path]
        = ρ * (specPathLength path / 1000) / (w / 1000 * (t / 1000)))
    ∧ calculate_coil_resistance 1 0.035 1.70e-8
        [[((0 : ℝ), (0 : ℝ)), ((3 : ℝ), (4 : ℝ))]] = 17 / 7000
    ∧ |(17 / 7000 : ℝ) - 1.70e-8 * 0.005 / 3.5e-8|
        ≤ 1e-6 * (1.70e-8 * 0.005 / 3.5e-8)
    ∧ ∀ (w t ρ : ℝ) (cs : List (List Point)), 0 < w → 0 < t → 0 ≤ ρ →
        0 ≤ calculate_coil_resistance w t ρ cs := by
  refine ⟨fun w t ρ path _ => ?_, ?_, ?_, fun w t ρ cs hw ht hρ => ?_⟩
  · rw [calculate_single, turnLength_eq_specPathLength]
  · rw [calculate_single, turnLength_two, segment_length_three_four]
    norm_num
  · norm_num
  · exact calculate_nonneg w t ρ cs hw ht hρ

/-- Witness for C4's universally quantified formula clause at a concrete
2-point path. -/
theorem C4_resistance_formula_witness :
    calculate_coil_resistance 2 3 5 [[((0 : ℝ), (0 : ℝ)), ((3 : ℝ), (4 : ℝ))]]
      = 5 * (specPathLength [((0 : ℝ), (0 : ℝ)), ((3 : ℝ), (4 : ℝ))] / 1000)
        / (2 / 1000 * (3 / 1000)) :=
  C4_resistance_formula.1 2 3 5 _ (by norm_num)

/-- C5 counterexample: under style 1 (Policy B) no `(trace_width + spacing)`
compensation is applied at all.  For `specStyle1` the first emitted point is
`(31.2, 0)` (radius `(31.5/cos - 0.3/cos)/2` with `cos = 1/2`), while the
claim's "add before the corner conversion under Policy B" formula would give
`((31.5 + 0.3 + 0.3)/cos - 0.3/cos)/2 = 31.8`. -/
theorem C5_no_compensation_style1 :
    ((generate_hexagon_nfc_coil_dxf specStyle1).headI).head? = some ((31.2 : ℝ), 0)
      ∧ ((31.2 : ℝ)) ≠ ((31.5 + 0.3 + 0.3) / (1 / 2) - 0.3 / (1 / 2)) / 2 := by
  constructor
  · show (points specStyle1).head? = _
    rw [points_head_one specStyle1 rfl (by norm_num [specStyle1]) (by norm_num [specStyle1]),
      specStyle1_router]
  · norm_num

/-- C5 amended: the `(trace_width + spacing)` compensation is applied only
under style 0 (Policy A), and it is added after the division by
`cos(180°/num_sides)`, not before.  Observable on the first emitted point:
under style 1 its radius is `(od/cos - tw/cos)/2` with no compensation term,
and under style 0 it is `((od/cos + tw + sp) - tw/cos)/2 - delta_r/6`. -/
theorem C5_amended_compensation_style0 (spec : CoilSpec) (hn : 3 ≤ spec.num_sides)
    (hT : 1 ≤ spec.num_turns) :
    (spec.style = 1 → ((generate_hexagon_nfc_coil_dxf spec).headI).head?
      = some ((od_converted spec - spec.trace_width_mm / cosHalf spec) / 2, 0))
    ∧ (spec.style = 0 → ((generate_hexagon_nfc_coil_dxf spec).headI).head?
      = some ((od_converted spec + spec.trace_width_mm + spec.spacing_mm
          - spec.trace_width_mm / cosHalf spec) / 2 - delta_r spec / 6, 0)) := by
  constructor
  · intro h
    show (points spec).head? = _
    rw [points_head_one spec h hT (by omega), r_outer, od_adjusted, if_neg (by omega)]
  · intro h
    show (points spec).head? = _
    rw [points_head_zero spec h hT (by omega), r_outer, od_adjusted, if_pos h]

/-- Witness for C5's amended claim at `specStyle1`. -/
theorem C5_amended_compensation_style0_witness :
    ((generate_hexagon_nfc_coil_dxf specStyle1).headI).head?
      = some ((od_converted specStyle1 - specStyle1.trace_width_mm / cosHalf specStyle1) / 2,
        0) :=
  (C5_amended_compensation_style0 specStyle1 (by norm_num [specStyle1])
    (by norm_num [specStyle1])).1 rfl

/-- C6 counterexample: under style 1 the terminal point of `specStyle1` is at
radius `r_outer - 7 * delta_r = 31.2 - 8.4 = 22.8` — no additional fractional
`delta_r/num_sides` decrement is applied beyond the per-turn full-`delta_r`
steps, while the claim's extra step would give `22.8 - 1.2/3 = 22.4`. -/
theorem C6_terminal_not_fractional_style1 :
    ((generate_hexagon_nfc_coil_dxf specStyle1).headI).getLast? = some ((22.8 : ℝ), 0)
      ∧ ((22.8 : ℝ)) ≠ 22.8 - 1.2 / 3 := by
  constructor
  · show (points specStyle1).getLast? = _
    rw [points_getLast, specStyle1_rfinal]
  · norm_num

/-- C6 amended: the extra fractional `delta_r/6` decrement before the
terminal point exists only under style 0 (Policy A).  Under style 1
(Policy B) the terminal point is emitted at exactly the radius the turn loop
ended with, `r_outer - num_turns * delta_r` (which already includes the last
per-turn full-`delta_r` decrement); under style 0 the terminal radius is the
loop-final radius minus one further `delta_r/6`. -/
theorem C6_amended_terminal_radius (spec : CoilSpec) :
    (spec.style = 1 → ((generate_hexagon_nfc_coil_dxf spec).headI).getLast?
      = some (r_outer spec - spec.num_turns * delta_r spec, 0))
    ∧ (spec.style = 0 → ((generate_hexagon_nfc_coil_dxf spec).headI).getLast?
      = some ((turnsState spec).1 - delta_r spec / 6, 0)) := by
  constructor
  · intro h
    show (points spec).getLast? = _
    rw [points_getLast, r_final_one spec h]
  · intro h
    show (points spec).getLast? = _
    rw [points_getLast, r_final, if_pos h]

/-- Witness for C6's amended claim at `specStyle1`. -/
theorem C6_amended_terminal_radius_witness :
    ((generate_hexagon_nfc_coil_dxf specStyle1).headI).getLast?
      = some (r_outer specStyle1 - specStyle1.num_turns * delta_r specStyle1, 0) :=
  (C6_amended_terminal_radius specStyle1).1 rfl

/-- C7 counterexample: the distance from the origin is not always
non-increasing.  `specWideSpacing` is a valid specification (3 sides, 1 turn,
positive lengths) whose huge spacing drives the terminal radius to `-31.4`:
the last corner sits at distance `31.2` but the terminal point at `31.4`. -/
theorem C7_distance_can_increase :
    ¬ distNonInc ((generate_hexagon_nfc_coil_dxf specWideSpacing).headI) := by
  intro h
  have hpts : points specWideSpacing
      = [pt 31.2 0, pt 31.2 120, pt 31.2 240, pt (-31.4) 0] := by
    rw [points_char_one specWideSpacing rfl,
      show specWideSpacing.num_turns = 1 from rfl,
      show anglesDeg specWideSpacing.num_sides = [(0 : ℝ), 120, 240] from anglesDeg_three,
      genTurns1, genTurns1, specWideSpacing_router, specWideSpacing_delta]
    norm_num
  have h' : distNonInc (points specWideSpacing) := h
  rw [hpts, distNonInc, List.chain'_cons, List.chain'_cons, List.chain'_cons] at h'
  have hrel := h'.2.2.1
  rw [distO_pt, distO_pt] at hrel
  rw [show |(-31.4 : ℝ)| = 31.4 from by norm_num,
    show |(31.2 : ℝ)| = 31.2 from by norm_num] at hrel
  linarith

/-- C7 amended: the distance from the origin of the emitted points is
monotonically non-increasing from first point to last provided the terminal
radius is still nonnegative (automatic in the "safe range" of turn counts);
and under Policy B (style 1) the radius at the start of turn `k+1` is exactly
the radius at the start of turn `k` minus `delta_r`, unconditionally. -/
theorem C7_amended_monotone (spec : CoilSpec) (hn : 3 ≤ spec.num_sides)
    (hT : 1 ≤ spec.num_turns) (hod : 0 < spec.outer_diameter_mm)
    (htw : 0 < spec.trace_width_mm) (htt : 0 < spec.trace_thickness_mm)
    (hsp : 0 < spec.spacing_mm) (hst : spec.style = 0 ∨ spec.style = 1)
    (hrf : 0 ≤ r_final spec) :
    distNonInc ((generate_hexagon_nfc_coil_dxf spec).headI)
    ∧ (spec.style = 1 → ∀ k : ℕ,
        r_start spec (k + 1) = r_start spec k - delta_r spec) := by
  constructor
  · show distNonInc (points spec)
    exact points_distNonInc spec hn htw hsp hst hrf
  · intro h k
    rw [r_start_one spec h, r_start_one spec h]
    push_cast
    ring

/-- Witness for C7's amended claim at `specStyle1` (terminal radius
`22.8 ≥ 0`). -/
theorem C7_amended_monotone_witness :
    distNonInc ((generate_hexagon_nfc_coil_dxf specStyle1).headI) :=
  (C7_amended_monotone specStyle1 (by norm_num [specStyle1]) (by norm_num [specStyle1])
    (by norm_num [specStyle1]) (by norm_num [specStyle1]) (by norm_num [specStyle1])
    (by norm_num [specStyle1]) (Or.inr rfl)
    (by rw [specStyle1_rfinal]; norm_num)).1

/-- C8 counterexample: `calculate_coil_resistance` performs no validation.
On a path with fewer than 2 points it returns `0` instead of failing, and
with a negative trace width it returns a negative resistance instead of
failing. -/
theorem C8_estimator_no_validation :
    calculate_coil_resistance 1 0.035 1.70e-8 [[((0 : ℝ), (0 : ℝ))]] = 0
    ∧ calculate_coil_resistance (-1) 0.035 1.70e-8
        [[((0 : ℝ), (0 : ℝ)), ((3 : ℝ), (4 : ℝ))]] < 0 := by
  constructor
  · apply calculate_short_lists
    intro l hl
    rw [List.mem_singleton] at hl
    subst hl
    norm_num
  · rw [calculate_single, turnLength_two, segment_length_three_four]
    norm_num

/-- C8 amended: the estimator validates nothing.  A single-point path yields
resistance `0` (no error), and a negative trace width is used as-is, making
the resistance negative whenever the path has positive length.  (A trace
width or thickness of exactly `0` triggers a float division by zero in the
source, again not an `InvalidSpecification` failure.) -/
theorem C8_amended_no_validation :
    (∀ (w t ρ : ℝ) (p : Point), calculate_coil_resistance w t ρ [[p]] = 0)
    ∧ ∀ (w t ρ : ℝ) (path : List Point), w < 0 → 0 < t → 0 < ρ →
        0 < turnLength path → calculate_coil_resistance w t ρ [path] < 0 := by
  constructor
  · intro w t ρ p
    apply calculate_short_lists
    intro l hl
    rw [List.mem_singleton] at hl
    subst hl
    norm_num
  · intro w t ρ path hw ht hρ hL
    rw [calculate_single]
    apply div_neg_of_pos_of_neg
    · positivity
    · apply mul_neg_of_neg_of_pos
      · linarith
      · linarith

/-- Witness for C8's amended claim at concrete inputs. -/
theorem C8_amended_no_validation_witness :
    calculate_coil_resistance 5 7 11 [[((2 : ℝ), (3 : ℝ))]] = 0
    ∧ calculate_coil_resistance (-1) 1 1 [[((0 : ℝ), (0 : ℝ)), ((3 : ℝ), (4 : ℝ))]] < 0 :=
  ⟨C8_amended_no_validation.1 5 7 11 ((2 : ℝ), (3 : ℝ)),
    C8_amended_no_validation.2 (-1) 1 1 [((0 : ℝ), (0 : ℝ)), ((3 : ℝ), (4 : ℝ))]
      (by norm_num) (by norm_num) (by norm_num)
      (by rw [turnLength_two, segment_length_three_four]; norm_num)⟩

/-- C9 counterexample: scaling only `outer_diameter` by `k = 2` does not
scale the coordinates by `2`.  Doubling `specStyle1`'s outer diameter moves
the first emitted point from `(31.2, 0)` to `(62.7, 0)`, not `(62.4, 0)`:
the `trace_width/cos` term in `r_outer` and all the `delta_r` decrements do
not depend on the outer diameter. -/
theorem C9_od_only_scaling_fails :
    ((generate_hexagon_nfc_coil_dxf specStyle1).headI).head? = some ((31.2 : ℝ), 0)
    ∧ ((generate_hexagon_nfc_coil_dxf specDoubledOD).headI).head? = some ((62.7 : ℝ), 0)
    ∧ ((62.7 : ℝ)) ≠ 2 * 31.2 := by
  refine ⟨?_, ?_, by norm_num⟩
  · show (points specStyle1).head? = _
    rw [points_head_one specStyle1 rfl (by norm_num [specStyle1]) (by norm_num [specStyle1]),
      specStyle1_router]
  · show (points specDoubledOD).head? = _
    rw [points_head_one specDoubledOD rfl (by norm_num [specDoubledOD])
      (by norm_num [specDoubledOD]), specDoubledOD_router]

/-- C9 amended: scaling all three in-plane length parameters
(outer diameter, trace width, spacing) by `k > 0` scales every emitted
coordinate by `k` and the total trace length by `k`; consequently the
resistance computed from the scaled path with the width/thickness arguments
held fixed scales by `k`. -/
theorem C9_amended_inplane_scaling (spec : CoilSpec) (k : ℝ) (hk : 0 < k)
    (hst : spec.style = 0 ∨ spec.style = 1) (w t ρ : ℝ) :
    points (scaleSpec k spec) = (points spec).map (scalePoint k)
    ∧ turnLength (points (scaleSpec k spec)) = k * turnLength (points spec)
    ∧ calculate_coil_resistance w t ρ (generate_hexagon_nfc_coil_dxf (scaleSpec k spec))
      = k * calculate_coil_resistance w t ρ (generate_hexagon_nfc_coil_dxf spec) := by
  have hmap := points_scale k spec hst
  have hlen : turnLength (points (scaleSpec k spec)) = k * turnLength (points spec) := by
    rw [hmap, turnLength_scale k hk.le]
  refine ⟨hmap, hlen, ?_⟩
  rw [generate_hexagon_nfc_coil_dxf, generate_hexagon_nfc_coil_dxf,
    calculate_single, calculate_single, hlen]
  ring

/-- Witness for C9's amended claim at `specStyle1` with `k = 2`. -/
theorem C9_amended_inplane_scaling_witness :
    points (scaleSpec 2 specStyle1) = (points specStyle1).map (scalePoint 2) :=
  (C9_amended_inplane_scaling specStyle1 2 (by norm_num) (Or.inr rfl) 1 1 1).1

/-- C10: the generator returns a list holding exactly one inner list — the
whole point sequence; the resistance calculation is additive across inner
lists (segments are summed within an inner list only, never between two
inner lists), and when every inner list has fewer than 2 points it returns
resistance `0` rather than failing. -/
theorem C10_nested_structure :
    (∀ spec : CoilSpec, generate_hexagon_nfc_coil_dxf spec = [points spec])
    ∧ (∀ (w t ρ : ℝ) (cs₁ cs₂ : List (List Point)),
        calculate_coil_resistance w t ρ (cs₁ ++ cs₂)
          = calculate_coil_resistance w t ρ cs₁ + calculate_coil_resistance w t ρ cs₂)
    ∧ ∀ (w t ρ : ℝ) (cs : List (List Point)), (∀ l ∈ cs, l.length < 2) →
        calculate_coil_resistance w t ρ cs = 0 :=
  ⟨fun _ => rfl, calculate_append, calculate_short_lists⟩

/-- Witness for C10's short-inner-lists clause at a concrete two-list input. -/
theorem C10_nested_structure_witness :
    calculate_coil_resistance 1 2 3 [[((0 : ℝ), (0 : ℝ))], [((1 : ℝ), (1 : ℝ))]] = 0 :=
  C10_nested_structure.2.2 1 2 3 _ (by
    intro l hl
    rw [List.mem_cons, List.mem_singleton] at hl
    rcases hl with rfl | rfl <;> norm_num)

end HexCoil
